import Mathlib

/-!
# GSM 7-bit codec (gsm7-alt): shallow embedding and verification

This file embeds the Rust library `gsm7-alt` in Lean 4 and proves properties
of the encode/decode engine.  The repository ships two variants of the codec:

* the minimal variant in `src/lib.rs` (namespace `Gsm7` below), and
* the packaged variant in `target/package/gsm7-alt-0.1.0/src/lib.rs`
  (namespace `Gsm7.Pkg` below), which adds a length limit and an optional
  validation pre-pass.

Rust strings are modelled as `List Char` (a Rust `char` is a Unicode scalar
value, exactly Lean's `Char`); byte buffers are modelled as `List Nat` with
values below 256; fallible functions return `Except Gsm7Error`.
-/

/-- Equality of `Except` results is decidable when both sides are. -/
instance exceptDecEq {ε α : Type} [DecidableEq ε] [DecidableEq α] :
    DecidableEq (Except ε α) := fun a b =>
  match a, b with
  | .ok x, .ok y =>
    if h : x = y then .isTrue (by rw [h])
    else .isFalse (fun hh => h (Except.ok.inj hh))
  | .error x, .error y =>
    if h : x = y then .isTrue (by rw [h])
    else .isFalse (fun hh => h (Except.error.inj hh))
  | .ok _, .error _ => .isFalse (fun hh => Except.noConfusion hh)
  | .error _, .ok _ => .isFalse (fun hh => Except.noConfusion hh)

namespace Gsm7

/-- `Code` from `src/lib.rs`: how a character is represented in the GSM
alphabet, either as a single byte or as an escape pair `0x1B, b`. -/
inductive Code where
  | single (b : Nat)
  | escape (b : Nat)
deriving DecidableEq

/-- `Gsm7Error` from `src/lib.rs`: the four error kinds. -/
inductive Gsm7Error where
  | unsupportedCharacter (character : Char) (code : Nat)
  | invalidEscapeSequence (code : Nat)
  | invalidByte (byte : Nat)
  | malformedData (reason : String)
deriving DecidableEq

/-- `Gsm7Config` from `src/lib.rs` (minimal variant: two fields). -/
structure Gsm7Config where
  strict : Bool
  replacement_char : Char
deriving DecidableEq

/-- `impl Default for Gsm7Config`: non-strict, replacement `U+FFFD`. -/
def Gsm7Config.default : Gsm7Config :=
  { strict := false, replacement_char := Char.ofNat 0xFFFD }

/-- `Gsm7Config::strict()`: strict mode, replacement `U+FFFD`. -/
def Gsm7Config.strictCfg : Gsm7Config :=
  { strict := true, replacement_char := Char.ofNat 0xFFFD }

/-- The literal base table of `build_gsm_table` in `src/lib.rs`:
code 0x00-0x7F paired with its character, `none` at the escape slot 0x1B.
Non-ASCII characters are written by code point. -/
def gsmTable : List (Nat × Option Char) := [
  (0x00, some (Char.ofNat 0x40)),   -- @
  (0x01, some (Char.ofNat 0xA3)),   -- pound sign
  (0x02, some (Char.ofNat 0x24)),   -- $
  (0x03, some (Char.ofNat 0xA5)),   -- yen sign
  (0x04, some (Char.ofNat 0xE8)),   -- e grave
  (0x05, some (Char.ofNat 0xE9)),   -- e acute
  (0x06, some (Char.ofNat 0xF9)),   -- u grave
  (0x07, some (Char.ofNat 0xEC)),   -- i grave
  (0x08, some (Char.ofNat 0xF2)),   -- o grave
  (0x09, some (Char.ofNat 0xC7)),   -- C cedilla
  (0x0A, some (Char.ofNat 0x0A)),   -- line feed
  (0x0B, some (Char.ofNat 0xD8)),   -- O stroke
  (0x0C, some (Char.ofNat 0xF8)),   -- o stroke
  (0x0D, some (Char.ofNat 0x0D)),   -- carriage return
  (0x0E, some (Char.ofNat 0xC5)),   -- A ring
  (0x0F, some (Char.ofNat 0xE5)),   -- a ring
  (0x10, some (Char.ofNat 0x394)),  -- Delta
  (0x11, some (Char.ofNat 0x5F)),   -- underscore
  (0x12, some (Char.ofNat 0x3A6)),  -- Phi
  (0x13, some (Char.ofNat 0x393)),  -- Gamma
  (0x14, some (Char.ofNat 0x39B)),  -- Lambda
  (0x15, some (Char.ofNat 0x3A9)),  -- Omega
  (0x16, some (Char.ofNat 0x3A0)),  -- Pi
  (0x17, some (Char.ofNat 0x3A8)),  -- Psi
  (0x18, some (Char.ofNat 0x3A3)),  -- Sigma
  (0x19, some (Char.ofNat 0x398)),  -- Theta
  (0x1A, some (Char.ofNat 0x39E)),  -- Xi
  (0x1B, none),                     -- ESC: no character representation
  (0x1C, some (Char.ofNat 0xC6)),   -- AE
  (0x1D, some (Char.ofNat 0xE6)),   -- ae
  (0x1E, some (Char.ofNat 0xDF)),   -- sharp s
  (0x1F, some (Char.ofNat 0xC9)),   -- E acute
  (0x20, some (Char.ofNat 0x20)),   -- space
  (0x21, some (Char.ofNat 0x21)),   -- !
  (0x22, some (Char.ofNat 0x22)),   -- double quote
  (0x23, some (Char.ofNat 0x23)),   -- #
  (0x24, some (Char.ofNat 0xA4)),   -- currency sign
  (0x25, some (Char.ofNat 0x25)),   -- %
  (0x26, some (Char.ofNat 0x26)),   -- ampersand
  (0x27, some (Char.ofNat 0x27)),   -- apostrophe
  (0x28, some (Char.ofNat 0x28)),   -- (
  (0x29, some (Char.ofNat 0x29)),   -- )
  (0x2A, some (Char.ofNat 0x2A)),   -- *
  (0x2B, some (Char.ofNat 0x2B)),   -- +
  (0x2C, some (Char.ofNat 0x2C)),   -- comma
  (0x2D, some (Char.ofNat 0x2D)),   -- hyphen
  (0x2E, some (Char.ofNat 0x2E)),   -- period
  (0x2F, some (Char.ofNat 0x2F)),   -- slash
  (0x30, some (Char.ofNat 0x30)),   -- 0
  (0x31, some (Char.ofNat 0x31)),   -- 1
  (0x32, some (Char.ofNat 0x32)),   -- 2
  (0x33, some (Char.ofNat 0x33)),   -- 3
  (0x34, some (Char.ofNat 0x34)),   -- 4
  (0x35, some (Char.ofNat 0x35)),   -- 5
  (0x36, some (Char.ofNat 0x36)),   -- 6
  (0x37, some (Char.ofNat 0x37)),   -- 7
  (0x38, some (Char.ofNat 0x38)),   -- 8
  (0x39, some (Char.ofNat 0x39)),   -- 9
  (0x3A, some (Char.ofNat 0x3A)),   -- colon
  (0x3B, some (Char.ofNat 0x3B)),   -- semicolon
  (0x3C, some (Char.ofNat 0x3C)),   -- <
  (0x3D, some (Char.ofNat 0x3D)),   -- =
  (0x3E, some (Char.ofNat 0x3E)),   -- >
  (0x3F, some (Char.ofNat 0x3F)),   -- ?
  (0x40, some (Char.ofNat 0xA1)),   -- inverted exclamation
  (0x41, some (Char.ofNat 0x41)),   -- A
  (0x42, some (Char.ofNat 0x42)),   -- B
  (0x43, some (Char.ofNat 0x43)),   -- C
  (0x44, some (Char.ofNat 0x44)),   -- D
  (0x45, some (Char.ofNat 0x45)),   -- E
  (0x46, some (Char.ofNat 0x46)),   -- F
  (0x47, some (Char.ofNat 0x47)),   -- G
  (0x48, some (Char.ofNat 0x48)),   -- H
  (0x49, some (Char.ofNat 0x49)),   -- I
  (0x4A, some (Char.ofNat 0x4A)),   -- J
  (0x4B, some (Char.ofNat 0x4B)),   -- K
  (0x4C, some (Char.ofNat 0x4C)),   -- L
  (0x4D, some (Char.ofNat 0x4D)),   -- M
  (0x4E, some (Char.ofNat 0x4E)),   -- N
  (0x4F, some (Char.ofNat 0x4F)),   -- O
  (0x50, some (Char.ofNat 0x50)),   -- P
  (0x51, some (Char.ofNat 0x51)),   -- Q
  (0x52, some (Char.ofNat 0x52)),   -- R
  (0x53, some (Char.ofNat 0x53)),   -- S
  (0x54, some (Char.ofNat 0x54)),   -- T
  (0x55, some (Char.ofNat 0x55)),   -- U
  (0x56, some (Char.ofNat 0x56)),   -- V
  (0x57, some (Char.ofNat 0x57)),   -- W
  (0x58, some (Char.ofNat 0x58)),   -- X
  (0x59, some (Char.ofNat 0x59)),   -- Y
  (0x5A, some (Char.ofNat 0x5A)),   -- Z
  (0x5B, some (Char.ofNat 0xC4)),   -- A diaeresis
  (0x5C, some (Char.ofNat 0xD6)),   -- O diaeresis
  (0x5D, some (Char.ofNat 0xD1)),   -- N tilde
  (0x5E, some (Char.ofNat 0xDC)),   -- U diaeresis
  (0x5F, some (Char.ofNat 0xA7)),   -- section sign
  (0x60, some (Char.ofNat 0xBF)),   -- inverted question mark
  (0x61, some (Char.ofNat 0x61)),   -- a
  (0x62, some (Char.ofNat 0x62)),   -- b
  (0x63, some (Char.ofNat 0x63)),   -- c
  (0x64, some (Char.ofNat 0x64)),   -- d
  (0x65, some (Char.ofNat 0x65)),   -- e
  (0x66, some (Char.ofNat 0x66)),   -- f
  (0x67, some (Char.ofNat 0x67)),   -- g
  (0x68, some (Char.ofNat 0x68)),   -- h
  (0x69, some (Char.ofNat 0x69)),   -- i
  (0x6A, some (Char.ofNat 0x6A)),   -- j
  (0x6B, some (Char.ofNat 0x6B)),   -- k
  (0x6C, some (Char.ofNat 0x6C)),   -- l
  (0x6D, some (Char.ofNat 0x6D)),   -- m
  (0x6E, some (Char.ofNat 0x6E)),   -- n
  (0x6F, some (Char.ofNat 0x6F)),   -- o
  (0x70, some (Char.ofNat 0x70)),   -- p
  (0x71, some (Char.ofNat 0x71)),   -- q
  (0x72, some (Char.ofNat 0x72)),   -- r
  (0x73, some (Char.ofNat 0x73)),   -- s
  (0x74, some (Char.ofNat 0x74)),   -- t
  (0x75, some (Char.ofNat 0x75)),   -- u
  (0x76, some (Char.ofNat 0x76)),   -- v
  (0x77, some (Char.ofNat 0x77)),   -- w
  (0x78, some (Char.ofNat 0x78)),   -- x
  (0x79, some (Char.ofNat 0x79)),   -- y
  (0x7A, some (Char.ofNat 0x7A)),   -- z
  (0x7B, some (Char.ofNat 0xE4)),   -- a diaeresis
  (0x7C, some (Char.ofNat 0xF6)),   -- o diaeresis
  (0x7D, some (Char.ofNat 0xF1)),   -- n tilde
  (0x7E, some (Char.ofNat 0xFC)),   -- u diaeresis
  (0x7F, some (Char.ofNat 0xE0))]   -- a grave

/-- The literal extension table of `build_gsm_ext_table` in `src/lib.rs`:
suffix byte (after the 0x1B escape prefix) paired with its character. -/
def gsmExtTable : List (Nat × Char) := [
  (0x0A, Char.ofNat 0x0C),    -- form feed
  (0x14, Char.ofNat 0x5E),    -- caret
  (0x28, Char.ofNat 0x7B),    -- left curly brace
  (0x29, Char.ofNat 0x7D),    -- right curly brace
  (0x2F, Char.ofNat 0x5C),    -- backslash
  (0x3C, Char.ofNat 0x5B),    -- left square bracket
  (0x3D, Char.ofNat 0x7E),    -- tilde
  (0x3E, Char.ofNat 0x5D),    -- right square bracket
  (0x40, Char.ofNat 0x7C),    -- vertical bar
  (0x65, Char.ofNat 0x20AC)]  -- euro sign

/-- Association-list lookup by code in the base table. -/
def baseCharOf : List (Nat × Option Char) → Nat → Option Char
  | [], _ => none
  | (k, oc) :: rest, b => if k == b then oc else baseCharOf rest b

/-- Association-list lookup by suffix code in the extension table. -/
def extCharOf : List (Nat × Char) → Nat → Option Char
  | [], _ => none
  | (k, c) :: rest, b => if k == b then some c else extCharOf rest b

/-- Reverse lookup by character in the base table (skipping the `none` slot). -/
def baseCodeOf : List (Nat × Option Char) → Char → Option Nat
  | [], _ => none
  | (k, some c0) :: rest, c => if c0 == c then some k else baseCodeOf rest c
  | (_, none) :: rest, c => baseCodeOf rest c

/-- Reverse lookup by character in the extension table. -/
def extCodeOf : List (Nat × Char) → Char → Option Nat
  | [], _ => none
  | (k, c0) :: rest, c => if c0 == c then some k else extCodeOf rest c

/-- The dense decode array `gsm_array` of `GSM_MAPS`: character owned by a
base-table code (and `none` outside 0x00-0x7F or at the 0x1B slot). -/
def gsmArray (b : Nat) : Option Char := baseCharOf gsmTable b

/-- The extension decode map `gsm_ext` of `GSM_MAPS`. -/
def gsmExtLookup (b : Nat) : Option Char := extCharOf gsmExtTable b

/-- The inverse index `char_to_gsm` of `GSM_MAPS`.  The build inserts every
base-table character as `Code::Single` first and then inserts every extension
character as `Code::Escape`, overwriting on collision; so lookup prefers the
extension mapping and otherwise falls back to the base mapping. -/
def charToGsm (c : Char) : Option Code :=
  match extCodeOf gsmExtTable c with
  | some e => some (.escape e)
  | none =>
    match baseCodeOf gsmTable c with
    | some b => some (.single b)
    | none => none

/-- The reason string of the trailing-escape `MalformedData` error. -/
def escEndMsg : String := "Escape byte at end of input"

/-- `encode_with_config` from `src/lib.rs`: one lookup per character; a
single code is appended as one byte, an escape code as `0x1B, b`; an unmapped
character errors in strict mode, and otherwise is substituted by the
replacement character when that has a single-byte code, else by `0x20`. -/
def encode_with_config (content : List Char) (cfg : Gsm7Config) :
    Except Gsm7Error (List Nat) :=
  match content with
  | [] => .ok []
  | c :: rest =>
    match charToGsm c with
    | some (.single b) => (encode_with_config rest cfg).map (b :: ·)
    | some (.escape b) => (encode_with_config rest cfg).map (fun t => 27 :: b :: t)
    | none =>
      if cfg.strict then
        .error (.unsupportedCharacter c c.toNat)
      else
        match charToGsm cfg.replacement_char with
        | some (.single b) => (encode_with_config rest cfg).map (b :: ·)
        | _ => (encode_with_config rest cfg).map (32 :: ·)

/-- `encode` from `src/lib.rs`: encode with the default configuration. -/
def encode (content : List Char) : Except Gsm7Error (List Nat) :=
  encode_with_config content Gsm7Config.default

/-- `decode_with_config` from `src/lib.rs`: the scanning loop.  `0x1B`
starts an escape pair (strict failure on a bad suffix or a missing suffix);
a byte below 128 is looked up in the base array (strict failure on the
unmapped slot); a byte of 128 or more always becomes the replacement. -/
def decode_with_config (data : List Nat) (cfg : Gsm7Config) :
    Except Gsm7Error (List Char) :=
  match data with
  | [] => .ok []
  | b :: rest =>
    if b = 27 then
      match rest with
      | [] =>
        if cfg.strict then .error (.malformedData escEndMsg)
        else .ok [cfg.replacement_char]
      | next :: rest2 =>
        match gsmExtLookup next with
        | some ch => (decode_with_config rest2 cfg).map (ch :: ·)
        | none =>
          if cfg.strict then .error (.invalidEscapeSequence next)
          else (decode_with_config rest2 cfg).map (cfg.replacement_char :: ·)
    else if b < 128 then
      match gsmArray b with
      | some ch => (decode_with_config rest cfg).map (ch :: ·)
      | none =>
        if cfg.strict then .error (.invalidByte b)
        else (decode_with_config rest cfg).map (cfg.replacement_char :: ·)
    else
      (decode_with_config rest cfg).map (cfg.replacement_char :: ·)

/-- `decode` from `src/lib.rs`: decode with the default configuration. -/
def decode (data : List Nat) : Except Gsm7Error (List Char) :=
  decode_with_config data Gsm7Config.default

/-- `encoded_len` from `src/lib.rs`: 1 byte per single code, 2 per escape
code, error on the first unmapped character (always strict semantics). -/
def encoded_len (content : List Char) : Except Gsm7Error Nat :=
  match content with
  | [] => .ok 0
  | c :: rest =>
    match charToGsm c with
    | some (.single _) => (encoded_len rest).map (· + 1)
    | some (.escape _) => (encoded_len rest).map (· + 2)
    | none => .error (.unsupportedCharacter c c.toNat)

/-- `is_gsm7_compatible` from `src/lib.rs`. -/
def is_gsm7_compatible (content : List Char) : Bool :=
  (encoded_len content).isOk

/-! ## Packaged variant (`target/package/gsm7-alt-0.1.0/src/lib.rs`) -/

namespace Pkg

/-- Modelled from the spec: the packaged source file in the repository starts
at `encode_with_config`, so the extended `Gsm7Config` struct itself is
missing; section 3 and section 6 of the spec give its fields and defaults
(`strict`, `replacement_char`, `max_input_length` with 0 meaning unbounded,
`validate_input`). -/
structure Config where
  strict : Bool
  replacement_char : Char
  max_input_length : Nat
  validate_input : Bool
deriving DecidableEq

/-- Modelled from the spec: default configuration of the extended variant
(non-strict, replacement `U+FFFD`, no length limit, no validation pass). -/
def Config.default : Config :=
  { strict := false, replacement_char := Char.ofNat 0xFFFD,
    max_input_length := 0, validate_input := false }

/-- Modelled from the spec: the table accessor `GsmMaps::get_char`, missing
from the packaged source.  Section 4.1 has it supply "the character for a
given base-table byte 0x00-0x7F"; outside that range there is no character. -/
def getChar (b : Nat) : Option Char := if b < 128 then gsmArray b else none

/-- Modelled from the spec: `GsmMaps::get_ext_char`, the extension-table
accessor of the packaged variant; the tables are the fixed GSM 03.38 data
shared with the minimal variant. -/
def getExtChar (b : Nat) : Option Char := gsmExtLookup b

/-- Modelled from the spec: `GsmMaps::get_code`, the inverse-index accessor
of the packaged variant, shared with the minimal variant. -/
def getCode (c : Char) : Option Code := charToGsm c

/-- The UTF-8 width of one character; Rust's `str::len` counts these. -/
def utf8CharLen (c : Char) : Nat :=
  if c.toNat < 0x80 then 1
  else if c.toNat < 0x800 then 2
  else if c.toNat < 0x10000 then 3
  else 4

/-- The UTF-8 byte length of a string, Rust's `content.len()`. -/
def utf8Len (content : List Char) : Nat :=
  (content.map utf8CharLen).sum

/-- The formatted reason of the length-limit `MalformedData` error:
`"Input length {} exceeds maximum of {}"`. -/
def lenMsg (n m : Nat) : String :=
  "Input length " ++ toString n ++ " exceeds maximum of " ++ toString m

/-- The character loop of the packaged `encode_with_config`: like the
minimal variant, except that an escape-coded replacement character is
emitted in its two-byte form before the `0x20` fallback. -/
def encodeLoop (content : List Char) (cfg : Config) :
    Except Gsm7Error (List Nat) :=
  match content with
  | [] => .ok []
  | c :: rest =>
    match getCode c with
    | some (.single b) => (encodeLoop rest cfg).map (b :: ·)
    | some (.escape b) => (encodeLoop rest cfg).map (fun t => 27 :: b :: t)
    | none =>
      if cfg.strict then
        .error (.unsupportedCharacter c c.toNat)
      else
        match getCode cfg.replacement_char with
        | some (.single b) => (encodeLoop rest cfg).map (b :: ·)
        | some (.escape b) => (encodeLoop rest cfg).map (fun t => 27 :: b :: t)
        | none => (encodeLoop rest cfg).map (32 :: ·)

/-- The packaged `encode_with_config`: early return on empty input, then the
length-limit check against the UTF-8 byte length, then the character loop. -/
def encode_with_config (content : List Char) (cfg : Config) :
    Except Gsm7Error (List Nat) :=
  if content = [] then .ok []
  else if 0 < cfg.max_input_length ∧ cfg.max_input_length < utf8Len content then
    .error (.malformedData (lenMsg (utf8Len content) cfg.max_input_length))
  else encodeLoop content cfg

/-- The scanning loop of the packaged `decode_with_config`.  Unlike the
minimal variant there is no explicit below-128 branch: every non-escape byte
goes through `getChar`. -/
def decodeLoop (data : List Nat) (cfg : Config) :
    Except Gsm7Error (List Char) :=
  match data with
  | [] => .ok []
  | b :: rest =>
    if b = 27 then
      match rest with
      | [] =>
        if cfg.strict then .error (.malformedData escEndMsg)
        else .ok [cfg.replacement_char]
      | next :: rest2 =>
        match getExtChar next with
        | some ch => (decodeLoop rest2 cfg).map (ch :: ·)
        | none =>
          if cfg.strict then .error (.invalidEscapeSequence next)
          else (decodeLoop rest2 cfg).map (cfg.replacement_char :: ·)
    else
      match getChar b with
      | some ch => (decodeLoop rest cfg).map (ch :: ·)
      | none =>
        if cfg.strict then .error (.invalidByte b)
        else (decodeLoop rest cfg).map (cfg.replacement_char :: ·)

/-- `validate_encoded_data` from the packaged source: the pre-pass that
replays the byte classification without emitting characters.  A trailing
escape is an error in BOTH modes; a bad escape suffix, a byte of 128 or
more, and an unmapped low byte are errors in strict mode only. -/
def validate_encoded_data (data : List Nat) (strict : Bool) :
    Except Gsm7Error Unit :=
  match data with
  | [] => .ok ()
  | b :: rest =>
    if b = 27 then
      match rest with
      | [] => .error (.malformedData escEndMsg)
      | next :: rest2 =>
        if strict ∧ (getExtChar next).isNone then
          .error (.invalidEscapeSequence next)
        else validate_encoded_data rest2 strict
    else if 128 ≤ b then
      if strict then .error (.invalidByte b) else validate_encoded_data rest strict
    else
      if strict ∧ (getChar b).isNone then .error (.invalidByte b)
      else validate_encoded_data rest strict

/-- The packaged `decode_with_config`: early return on empty input, the
length-limit check against the byte count, the optional validation pre-pass,
then the scanning loop. -/
def decode_with_config (data : List Nat) (cfg : Config) :
    Except Gsm7Error (List Char) :=
  if data = [] then .ok []
  else if 0 < cfg.max_input_length ∧ cfg.max_input_length < data.length then
    .error (.malformedData (lenMsg data.length cfg.max_input_length))
  else if cfg.validate_input then
    (validate_encoded_data data cfg.strict).bind (fun _ => decodeLoop data cfg)
  else decodeLoop data cfg

end Pkg

/-- Composed round trip under the default configuration. -/
def roundtripDefault (content : List Char) : Except Gsm7Error (List Char) :=
  (encode content).bind (fun bs => decode bs)

/-- Whether the greedy scan of the decode loop ends on a lone escape byte,
i.e. whether a byte appended to the buffer would be consumed as the suffix
of an escape pair instead of starting a fresh unit. -/
def trailingEsc : List Nat → Bool
  | [] => false
  | b :: rest =>
    if b = 27 then
      match rest with
      | [] => true
      | _ :: rest2 => trailingEsc rest2
    else trailingEsc rest

/-- The wire-level byte contract of the spec: the buffer parses as a
sequence of units, each either a base-table byte (below 128, mapped, and
never a standalone 0x1B) or an escape pair 0x1B followed by an
extension-table key. -/
def wireOk : List Nat → Bool
  | [] => true
  | b :: rest =>
    if b = 27 then
      match rest with
      | [] => false
      | e :: rest2 => (gsmExtLookup e).isSome && wireOk rest2
    else decide (b < 128) && ((gsmArray b).isSome && wireOk rest)

/-- Induction on a byte list that follows the scanning loop: empty list,
single byte, or a head with at least two bytes, with hypotheses for both
the one-byte and the two-byte advance. -/
def twoStepInduction {motive : List Nat → Prop}
    (l : List Nat) (nil : motive []) (one : ∀ b, motive [b])
    (more : ∀ a b t, motive t → motive (b :: t) → motive (a :: b :: t)) :
    motive l :=
  match l with
  | [] => nil
  | [b] => one b
  | a :: b :: t => more a b t (twoStepInduction t nil one more)
      (twoStepInduction (b :: t) nil one more)

/-! ## Helper lemmas -/

/-- `Except.map` on a success. -/
@[simp] theorem except_map_ok {ε α β : Type} (f : α → β) (a : α) :
    (Except.ok a : Except ε α).map f = .ok (f a) := rfl

/-- `Except.map` on a failure. -/
@[simp] theorem except_map_error {ε α β : Type} (f : α → β) (e : ε) :
    (Except.error e : Except ε α).map f = .error e := rfl

@[simp] theorem default_strict : Gsm7Config.default.strict = false := rfl

@[simp] theorem default_repl :
    Gsm7Config.default.replacement_char = Char.ofNat 0xFFFD := rfl

theorem baseCharOf_mem {l : List (Nat × Option Char)} {b : Nat} {c : Char}
    (h : baseCharOf l b = some c) : (b, some c) ∈ l := by
  induction l with
  | nil => simp [baseCharOf] at h
  | cons p rest ih =>
    obtain ⟨k, oc⟩ := p
    by_cases hk : k == b
    · simp only [baseCharOf, if_pos hk] at h
      have hkb : k = b := by simpa using hk
      subst hkb
      subst h
      exact List.mem_cons_self _ _
    · simp only [baseCharOf, if_neg hk] at h
      exact List.mem_cons_of_mem _ (ih h)

theorem extCharOf_mem {l : List (Nat × Char)} {b : Nat} {c : Char}
    (h : extCharOf l b = some c) : (b, c) ∈ l := by
  induction l with
  | nil => simp [extCharOf] at h
  | cons p rest ih =>
    obtain ⟨k, c0⟩ := p
    by_cases hk : k == b
    · simp only [extCharOf, if_pos hk] at h
      have hkb : k = b := by simpa using hk
      have hc : c0 = c := by simpa using h
      subst hkb; subst hc
      exact List.mem_cons_self _ _
    · simp only [extCharOf, if_neg hk] at h
      exact List.mem_cons_of_mem _ (ih h)

theorem baseCodeOf_mem {l : List (Nat × Option Char)} {c : Char} {b : Nat}
    (h : baseCodeOf l c = some b) : (b, some c) ∈ l := by
  induction l with
  | nil => simp [baseCodeOf] at h
  | cons p rest ih =>
    obtain ⟨k, oc⟩ := p
    cases oc with
    | none =>
      simp only [baseCodeOf] at h
      exact List.mem_cons_of_mem _ (ih h)
    | some c0 =>
      by_cases hc : c0 == c
      · simp only [baseCodeOf, if_pos hc] at h
        have hcc : c0 = c := by simpa using hc
        have hkb : k = b := by simpa using h
        subst hcc; subst hkb
        exact List.mem_cons_self _ _
      · simp only [baseCodeOf, if_neg hc] at h
        exact List.mem_cons_of_mem _ (ih h)

theorem extCodeOf_mem {l : List (Nat × Char)} {c : Char} {b : Nat}
    (h : extCodeOf l c = some b) : (b, c) ∈ l := by
  induction l with
  | nil => simp [extCodeOf] at h
  | cons p rest ih =>
    obtain ⟨k, c0⟩ := p
    by_cases hc : c0 == c
    · simp only [extCodeOf, if_pos hc] at h
      have hcc : c0 = c := by simpa using hc
      have hkb : k = b := by simpa using h
      subst hcc; subst hkb
      exact List.mem_cons_self _ _
    · simp only [extCodeOf, if_neg hc] at h
      exact List.mem_cons_of_mem _ (ih h)

theorem baseCodeOf_isSome_of_mem {l : List (Nat × Option Char)} {c : Char}
    {b : Nat} (h : (b, some c) ∈ l) : (baseCodeOf l c).isSome := by
  induction l with
  | nil => simp at h
  | cons p rest ih =>
    obtain ⟨k, oc⟩ := p
    rcases List.mem_cons.mp h with heq | hmem
    · obtain ⟨hk, hoc⟩ := Prod.mk.injEq .. ▸ heq
      subst hk
      cases hoc
      simp [baseCodeOf]
    · cases oc with
      | none => simpa [baseCodeOf] using ih hmem
      | some c0 =>
        by_cases hc : c0 = c
        · simp [baseCodeOf, hc]
        · simpa [baseCodeOf, hc] using ih hmem

theorem extCodeOf_isSome_of_mem {l : List (Nat × Char)} {c : Char}
    {e : Nat} (h : (e, c) ∈ l) : (extCodeOf l c).isSome := by
  induction l with
  | nil => simp at h
  | cons p rest ih =>
    obtain ⟨k, c0⟩ := p
    rcases List.mem_cons.mp h with heq | hmem
    · obtain ⟨hk, hc⟩ := Prod.mk.injEq .. ▸ heq
      subst hk
      cases hc
      simp [extCodeOf]
    · by_cases hc : c0 = c
      · simp [extCodeOf, hc]
      · simpa [extCodeOf, hc] using ih hmem

set_option maxRecDepth 4000 in
/-- Per-entry facts of the base table: every present character decodes back
through code lookup, and its code is below 128 and is not the escape byte. -/
theorem base_entry_ok : gsmTable.all (fun p =>
    match p.2 with
    | none => true
    | some c => (baseCharOf gsmTable p.1 == some c) && (decide (p.1 < 128))
        && (p.1 != 27)) = true := by decide

/-- Per-entry facts of the extension table: every suffix key decodes back to
its character (the keys are distinct), and keys are below 128. -/
theorem ext_entry_ok : gsmExtTable.all (fun p =>
    (extCharOf gsmExtTable p.1 == some p.2) && (decide (p.1 < 128))) = true := by
  decide

theorem base_mem_facts {b : Nat} {c : Char} (h : (b, some c) ∈ gsmTable) :
    gsmArray b = some c ∧ b < 128 ∧ b ≠ 27 := by
  have := (List.all_eq_true.mp base_entry_ok) _ h
  simp only [Bool.and_eq_true, beq_iff_eq, decide_eq_true_eq, bne_iff_ne,
    ne_eq] at this
  exact ⟨this.1.1, this.1.2, this.2⟩

theorem ext_mem_facts {e : Nat} {c : Char} (h : (e, c) ∈ gsmExtTable) :
    gsmExtLookup e = some c ∧ e < 128 := by
  have := (List.all_eq_true.mp ext_entry_ok) _ h
  simp only [Bool.and_eq_true, beq_iff_eq, decide_eq_true_eq] at this
  exact this

theorem charToGsm_single_mem {c : Char} {b : Nat}
    (h : charToGsm c = some (.single b)) : (b, some c) ∈ gsmTable := by
  unfold charToGsm at h
  cases hext : extCodeOf gsmExtTable c with
  | some e => rw [hext] at h; simp at h
  | none =>
    rw [hext] at h
    cases hbase : baseCodeOf gsmTable c with
    | some b0 =>
      rw [hbase] at h
      have : b0 = b := by simpa using h
      subst this
      exact baseCodeOf_mem hbase
    | none => rw [hbase] at h; simp at h

theorem charToGsm_escape_mem {c : Char} {e : Nat}
    (h : charToGsm c = some (.escape e)) : (e, c) ∈ gsmExtTable := by
  unfold charToGsm at h
  cases hext : extCodeOf gsmExtTable c with
  | some e0 =>
    rw [hext] at h
    have : e0 = e := by simpa using h
    subst this
    exact extCodeOf_mem hext
  | none =>
    rw [hext] at h
    cases hbase : baseCodeOf gsmTable c with
    | some b0 => rw [hbase] at h; simp at h
    | none => rw [hbase] at h; simp at h

theorem charToGsm_isSome_of_base {b : Nat} {c : Char}
    (h : (b, some c) ∈ gsmTable) : (charToGsm c).isSome := by
  unfold charToGsm
  cases hext : extCodeOf gsmExtTable c with
  | some e => simp
  | none =>
    cases hbase : baseCodeOf gsmTable c with
    | some b0 => simp
    | none =>
      have := baseCodeOf_isSome_of_mem h
      rw [hbase] at this
      simp at this

theorem charToGsm_isSome_of_ext {e : Nat} {c : Char}
    (h : (e, c) ∈ gsmExtTable) : (charToGsm c).isSome := by
  unfold charToGsm
  cases hext : extCodeOf gsmExtTable c with
  | some e0 => simp
  | none =>
    have := extCodeOf_isSome_of_mem h
    rw [hext] at this
    simp at this

/-- The default replacement character `U+FFFD` has no GSM code. -/
theorem repl_default_unmapped : charToGsm (Char.ofNat 0xFFFD) = none := by
  decide

theorem gsmArray_space : gsmArray 32 = some (Char.ofNat 0x20) := by decide

/-- Step equation of the minimal decoder for a non-escape head byte. -/
theorem decode_cons_low {b : Nat} (rest : List Nat) (cfg : Gsm7Config)
    (hne : b ≠ 27) :
    decode_with_config (b :: rest) cfg =
      if b < 128 then
        match gsmArray b with
        | some ch => (decode_with_config rest cfg).map (ch :: ·)
        | none =>
          if cfg.strict then .error (.invalidByte b)
          else (decode_with_config rest cfg).map (cfg.replacement_char :: ·)
      else (decode_with_config rest cfg).map (cfg.replacement_char :: ·) := by
  cases rest <;> simp [decode_with_config, hne]

/-- The minimal-variant encoder never fails in non-strict mode. -/
theorem encode_total (content : List Char) (cfg : Gsm7Config)
    (h : cfg.strict = false) :
    ∃ bs, encode_with_config content cfg = .ok bs := by
  induction content with
  | nil => exact ⟨[], rfl⟩
  | cons c rest ih =>
    obtain ⟨bs, hbs⟩ := ih
    cases hc : charToGsm c with
    | some code =>
      cases code with
      | single b => exact ⟨b :: bs, by simp [encode_with_config, hc, hbs]⟩
      | escape b => exact ⟨27 :: b :: bs, by simp [encode_with_config, hc, hbs]⟩
    | none =>
      cases hr : charToGsm cfg.replacement_char with
      | some code =>
        cases code with
        | single b =>
          exact ⟨b :: bs, by simp [encode_with_config, hc, h, hr, hbs]⟩
        | escape b =>
          exact ⟨32 :: bs, by simp [encode_with_config, hc, h, hr, hbs]⟩
      | none => exact ⟨32 :: bs, by simp [encode_with_config, hc, h, hr, hbs]⟩

/-- The packaged encoder loop never fails in non-strict mode. -/
theorem encodeLoop_total (content : List Char) (cfg : Pkg.Config)
    (h : cfg.strict = false) :
    ∃ bs, Pkg.encodeLoop content cfg = .ok bs := by
  induction content with
  | nil => exact ⟨[], rfl⟩
  | cons c rest ih =>
    obtain ⟨bs, hbs⟩ := ih
    cases hc : Pkg.getCode c with
    | some code =>
      cases code with
      | single b => exact ⟨b :: bs, by simp [Pkg.encodeLoop, hc, hbs]⟩
      | escape b => exact ⟨27 :: b :: bs, by simp [Pkg.encodeLoop, hc, hbs]⟩
    | none =>
      cases hr : Pkg.getCode cfg.replacement_char with
      | some code =>
        cases code with
        | single b =>
          exact ⟨b :: bs, by simp [Pkg.encodeLoop, hc, h, hr, hbs]⟩
        | escape b =>
          exact ⟨27 :: b :: bs, by simp [Pkg.encodeLoop, hc, h, hr, hbs]⟩
      | none => exact ⟨32 :: bs, by simp [Pkg.encodeLoop, hc, h, hr, hbs]⟩

/-- The minimal-variant decoder never fails in non-strict mode. -/
theorem decode_total (data : List Nat) (cfg : Gsm7Config)
    (h : cfg.strict = false) :
    ∃ s, decode_with_config data cfg = .ok s := by
  induction data using twoStepInduction with
  | nil => exact ⟨[], rfl⟩
  | one b =>
    by_cases hb : b = 27
    · subst hb
      exact ⟨[cfg.replacement_char], by simp [decode_with_config, h]⟩
    · by_cases hlt : b < 128
      · cases ha : gsmArray b with
        | some ch => exact ⟨[ch], by simp [decode_with_config, hb, hlt, ha]⟩
        | none =>
          exact ⟨[cfg.replacement_char],
            by simp [decode_with_config, hb, hlt, ha, h]⟩
      · exact ⟨[cfg.replacement_char], by simp [decode_with_config, hb, hlt]⟩
  | more a b t iht ihbt =>
    obtain ⟨s1, hs1⟩ := iht
    obtain ⟨s2, hs2⟩ := ihbt
    by_cases ha : a = 27
    · subst ha
      cases he : gsmExtLookup b with
      | some ch => exact ⟨ch :: s1, by simp [decode_with_config, he, hs1]⟩
      | none =>
        exact ⟨cfg.replacement_char :: s1,
          by simp [decode_with_config, he, hs1, h]⟩
    · by_cases hlt : a < 128
      · cases harr : gsmArray a with
        | some ch =>
          exact ⟨ch :: s2, by simp [decode_with_config, ha, hlt, harr, hs2]⟩
        | none =>
          exact ⟨cfg.replacement_char :: s2,
            by simp [decode_with_config, ha, hlt, harr, hs2, h]⟩
      · exact ⟨cfg.replacement_char :: s2,
          by simp [decode_with_config, ha, hlt, hs2]⟩

/-- The packaged decoder loop never fails in non-strict mode. -/
theorem decodeLoop_total (data : List Nat) (cfg : Pkg.Config)
    (h : cfg.strict = false) :
    ∃ s, Pkg.decodeLoop data cfg = .ok s := by
  induction data using twoStepInduction with
  | nil => exact ⟨[], rfl⟩
  | one b =>
    by_cases hb : b = 27
    · subst hb
      exact ⟨[cfg.replacement_char], by simp [Pkg.decodeLoop, h]⟩
    · cases ha : Pkg.getChar b with
      | some ch => exact ⟨[ch], by simp [Pkg.decodeLoop, hb, ha]⟩
      | none =>
        exact ⟨[cfg.replacement_char], by simp [Pkg.decodeLoop, hb, ha, h]⟩
  | more a b t iht ihbt =>
    obtain ⟨s1, hs1⟩ := iht
    obtain ⟨s2, hs2⟩ := ihbt
    by_cases ha : a = 27
    · subst ha
      cases he : Pkg.getExtChar b with
      | some ch => exact ⟨ch :: s1, by simp [Pkg.decodeLoop, he, hs1]⟩
      | none =>
        exact ⟨cfg.replacement_char :: s1,
          by simp [Pkg.decodeLoop, he, hs1, h]⟩
    · cases harr : Pkg.getChar a with
      | some ch => exact ⟨ch :: s2, by simp [Pkg.decodeLoop, ha, harr, hs2]⟩
      | none =>
        exact ⟨cfg.replacement_char :: s2,
          by simp [Pkg.decodeLoop, ha, harr, hs2, h]⟩

/-- Character-wise description of the default round trip: a mapped character
comes back unchanged, an unmapped one comes back as the space character
(because the default replacement `U+FFFD` is itself unmapped and encodes as
the `0x20` fallback). -/
theorem roundtrip_map (s : List Char) :
    roundtripDefault s = .ok (s.map fun c =>
      if (charToGsm c).isSome then c else Char.ofNat 0x20) := by
  induction s with
  | nil => rfl
  | cons c rest ih =>
    obtain ⟨bs, hbs⟩ := encode_total rest Gsm7Config.default rfl
    have hdec : decode_with_config bs Gsm7Config.default =
        .ok (rest.map fun c =>
          if (charToGsm c).isSome then c else Char.ofNat 0x20) := by
      have h0 := ih
      unfold roundtripDefault encode at h0
      rw [hbs] at h0
      exact h0
    cases hc : charToGsm c with
    | some code =>
      cases code with
      | single b =>
        obtain ⟨harr, hlt, hne⟩ := base_mem_facts (charToGsm_single_mem hc)
        have henc : encode_with_config (c :: rest) Gsm7Config.default =
            .ok (b :: bs) := by simp [encode_with_config, hc, hbs]
        unfold roundtripDefault encode decode
        rw [henc]
        show decode_with_config (b :: bs) Gsm7Config.default = _
        have hstep : decode_with_config (b :: bs) Gsm7Config.default =
            (decode_with_config bs Gsm7Config.default).map (c :: ·) := by
          rw [decode_cons_low bs Gsm7Config.default hne, if_pos hlt, harr]
        rw [hstep, hdec]
        simp [hc]
      | escape e =>
        obtain ⟨hext, hlt⟩ := ext_mem_facts (charToGsm_escape_mem hc)
        have henc : encode_with_config (c :: rest) Gsm7Config.default =
            .ok (27 :: e :: bs) := by simp [encode_with_config, hc, hbs]
        unfold roundtripDefault encode decode
        rw [henc]
        show decode_with_config (27 :: e :: bs) Gsm7Config.default = _
        simp [decode_with_config, hext, hdec, hc]
    | none =>
      have henc : encode_with_config (c :: rest) Gsm7Config.default =
          .ok (32 :: bs) := by
        simp [encode_with_config, hc, hbs, repl_default_unmapped]
      unfold roundtripDefault encode decode
      rw [henc]
      show decode_with_config (32 :: bs) Gsm7Config.default = _
      have hstep : decode_with_config (32 :: bs) Gsm7Config.default =
          (decode_with_config bs Gsm7Config.default).map
            (Char.ofNat 0x20 :: ·) := by
        rw [decode_cons_low bs Gsm7Config.default (by decide),
          if_pos (by decide), gsmArray_space]
      rw [hstep, hdec]
      simp [hc]

/-- Step equation of the wire contract for a non-escape head byte. -/
theorem wireOk_cons_low {b : Nat} (rest : List Nat) (hne : b ≠ 27) :
    wireOk (b :: rest) =
      (decide (b < 128) && ((gsmArray b).isSome && wireOk rest)) := by
  cases rest <;> simp [wireOk, hne]

/-! ## Claims -/

/-- C1: for every character present in the base table or the extension
table, decoding the encoding of the one-character string containing it,
under the default configuration, yields that same one-character string. -/
theorem claim1_roundtrip_char (c : Char)
    (h : (∃ b, gsmArray b = some c) ∨ (∃ e, gsmExtLookup e = some c)) :
    roundtripDefault [c] = .ok [c] := by
  have hsome : (charToGsm c).isSome := by
    rcases h with ⟨b, hb⟩ | ⟨e, he⟩
    · exact charToGsm_isSome_of_base (baseCharOf_mem hb)
    · exact charToGsm_isSome_of_ext (extCharOf_mem he)
  rw [roundtrip_map]
  simp [hsome]

/-- Witness for C1 at the base-table character `A` (code 0x41). -/
theorem claim1_roundtrip_char_witness :
    roundtripDefault [Char.ofNat 0x41] = .ok [Char.ofNat 0x41] :=
  claim1_roundtrip_char (Char.ofNat 0x41) (Or.inl ⟨0x41, by decide⟩)

/-- C10: the default replacement character `U+FFFD` is itself absent from
the inverse index, so under the default configuration every unmapped input
character encodes as the byte 0x20 and round-trips to the space character;
in general the default round trip keeps mapped characters and turns every
unmapped character into a space. -/
theorem claim10_default_replacement_fallback :
    charToGsm (Char.ofNat 0xFFFD) = none ∧
    (∀ c, charToGsm c = none →
      encode [c] = .ok [32] ∧ roundtripDefault [c] = .ok [Char.ofNat 0x20]) ∧
    (∀ s, roundtripDefault s = .ok (s.map fun c =>
      if (charToGsm c).isSome then c else Char.ofNat 0x20)) := by
  refine ⟨repl_default_unmapped, ?_, roundtrip_map⟩
  intro c hc
  constructor
  · show encode_with_config [c] Gsm7Config.default = .ok [32]
    simp [encode_with_config, hc, repl_default_unmapped]
  · rw [roundtrip_map]
    simp [hc]

/-- Witness for C10 at the unmapped crab emoji `U+1F980`. -/
theorem claim10_default_replacement_fallback_witness :
    encode [Char.ofNat 0x1F980] = .ok [32] ∧
    roundtripDefault [Char.ofNat 0x1F980] = .ok [Char.ofNat 0x20] :=
  claim10_default_replacement_fallback.2.1 (Char.ofNat 0x1F980) (by decide)

/-- C4: whenever the minimal decode loop reaches a byte of 128 or more at a
unit boundary, it emits the replacement character and continues with the
rest; this holds for every configuration, strict mode included, so this
branch never produces an error by itself. -/
theorem claim4_high_byte_always_replaced (cfg : Gsm7Config) (b : Nat)
    (rest : List Nat) (h128 : 128 ≤ b) (_h256 : b < 256)
    (_hrest : ∀ x ∈ rest, x < 256) :
    decode_with_config (b :: rest) cfg =
      (decode_with_config rest cfg).map (cfg.replacement_char :: ·) := by
  have hne : b ≠ 27 := by omega
  rw [decode_cons_low rest cfg hne, if_neg (by omega)]

/-- Witness for C4 at the byte 0x81 in strict mode. -/
theorem claim4_high_byte_always_replaced_witness :
    decode_with_config [0x81, 0x41] Gsm7Config.strictCfg =
      (decode_with_config [0x41] Gsm7Config.strictCfg).map
        (Gsm7Config.strictCfg.replacement_char :: ·) :=
  claim4_high_byte_always_replaced Gsm7Config.strictCfg 0x81 [0x41]
    (by decide) (by decide) (by decide)

/-- C8 counterexample: in the packaged variant a non-strict decode with the
validation pre-pass enabled fails on the single escape byte, because the
validator rejects a trailing escape regardless of strict mode, while no
length limit is involved. -/
theorem claim8_counterexample :
    Pkg.decode_with_config [27]
      { strict := false, replacement_char := Char.ofNat 0xFFFD,
        max_input_length := 0, validate_input := true } =
      .error (.malformedData escEndMsg) := by decide

/-- C8 (amended): non-strict decoding never fails, absent a length-limit
violation and absent an enabled validation pre-pass: the minimal variant is
unconditionally total in non-strict mode, and the packaged variant is total
in non-strict mode whenever `validate_input` is off and the length limit is
not violated. -/
theorem claim8_nonstrict_decode_total :
    (∀ (data : List Nat) (cfg : Gsm7Config), (∀ x ∈ data, x < 256) →
      cfg.strict = false → ∃ s, decode_with_config data cfg = .ok s) ∧
    (∀ (data : List Nat) (cfg : Pkg.Config), (∀ x ∈ data, x < 256) →
      cfg.strict = false → cfg.validate_input = false →
      (cfg.max_input_length = 0 ∨ data.length ≤ cfg.max_input_length) →
      ∃ s, Pkg.decode_with_config data cfg = .ok s) := by
  constructor
  · intro data cfg _ h
    exact decode_total data cfg h
  · intro data cfg _ h hv hlen
    by_cases hd : data = []
    · subst hd
      exact ⟨[], rfl⟩
    · obtain ⟨s, hs⟩ := decodeLoop_total data cfg h
      refine ⟨s, ?_⟩
      have hnotlong : ¬(0 < cfg.max_input_length ∧
          cfg.max_input_length < data.length) := by
        rintro ⟨hpos, hlt⟩
        rcases hlen with h0 | hle
        · omega
        · omega
      unfold Pkg.decode_with_config
      rw [if_neg hd, if_neg hnotlong, hv]
      simpa using hs

/-- Witness for C8 at the escape byte with validation off. -/
theorem claim8_nonstrict_decode_total_witness :
    (∃ s, decode_with_config [27] Gsm7Config.default = .ok s) ∧
    (∃ s, Pkg.decode_with_config [27] Pkg.Config.default = .ok s) :=
  ⟨claim8_nonstrict_decode_total.1 [27] Gsm7Config.default (by decide) rfl,
   claim8_nonstrict_decode_total.2 [27] Pkg.Config.default (by decide) rfl rfl
     (Or.inl rfl)⟩

/-- C6 counterexample: `[0x1B, 0x00, 0x1B]` ends in an escape byte that is
not consumed as the suffix of the earlier escape pair, yet strict decoding
fails with `InvalidEscapeSequence` (raised at the bad pair `0x1B, 0x00`),
not with the `MalformedData` escape-at-end error the claim names. -/
theorem claim6_counterexample :
    decode_with_config [27, 0, 27] Gsm7Config.strictCfg =
      .error (.invalidEscapeSequence 0) ∧
    Gsm7Error.invalidEscapeSequence 0 ≠ .malformedData escEndMsg :=
  ⟨by decide, by decide⟩

/-- C6 (amended): for a byte sequence ending in an escape byte that starts
a fresh unit, strict decoding fails — with the `MalformedData`
escape-at-end error exactly when the preceding bytes themselves decode
without error, and with the preceding bytes' own error otherwise — and
non-strict decoding succeeds, appending the replacement character to the
prefix's decoding and consuming the trailing escape as one byte. -/
theorem claim6_escape_at_end (data : List Nat) (cfg : Gsm7Config)
    (_hbytes : ∀ x ∈ data, x < 256) (hnd : trailingEsc data = false) :
    decode_with_config (data ++ [27]) cfg =
      match decode_with_config data cfg with
      | .ok s =>
        if cfg.strict then .error (.malformedData escEndMsg)
        else .ok (s ++ [cfg.replacement_char])
      | .error e => .error e := by
  clear _hbytes
  induction data using twoStepInduction with
  | nil =>
    cases hst : cfg.strict <;> simp [decode_with_config, hst]
  | one b =>
    by_cases hb : b = 27
    · subst hb
      simp [trailingEsc] at hnd
    · have hcons : ([b] ++ [27] : List Nat) = b :: [27] := rfl
      rw [hcons, decode_cons_low [27] cfg hb,
        show decode_with_config [b] cfg = _ from decode_cons_low [] cfg hb]
      by_cases hlt : b < 128
      · rw [if_pos hlt, if_pos hlt]
        cases harr : gsmArray b with
        | some ch =>
          cases hst : cfg.strict <;> simp [harr, decode_with_config, hst]
        | none =>
          cases hst : cfg.strict <;> simp [harr, decode_with_config, hst]
      · rw [if_neg hlt, if_neg hlt]
        cases hst : cfg.strict <;> simp [decode_with_config, hst]
  | more a b t iht ihbt =>
    by_cases ha : a = 27
    · subst ha
      have hnd2 : trailingEsc t = false := by
        simpa [trailingEsc] using hnd
      have ih := iht hnd2
      have hL : ((27 :: b :: t) ++ [27] : List Nat) = 27 :: b :: (t ++ [27]) :=
        rfl
      rw [hL]
      cases he : gsmExtLookup b with
      | some ch =>
        rw [show decode_with_config (27 :: b :: (t ++ [27])) cfg =
            (decode_with_config (t ++ [27]) cfg).map (ch :: ·) from by
          simp [decode_with_config, he]]
        rw [ih]
        rw [show decode_with_config (27 :: b :: t) cfg =
            (decode_with_config t cfg).map (ch :: ·) from by
          simp [decode_with_config, he]]
        cases hdt : decode_with_config t cfg with
        | ok s => cases hst : cfg.strict <;> simp [hst]
        | error e => simp
      | none =>
        cases hst : cfg.strict with
        | true =>
          rw [show decode_with_config (27 :: b :: (t ++ [27])) cfg =
              .error (.invalidEscapeSequence b) from by
            simp [decode_with_config, he, hst]]
          rw [show decode_with_config (27 :: b :: t) cfg =
              .error (.invalidEscapeSequence b) from by
            simp [decode_with_config, he, hst]]
        | false =>
          rw [show decode_with_config (27 :: b :: (t ++ [27])) cfg =
              (decode_with_config (t ++ [27]) cfg).map
                (cfg.replacement_char :: ·) from by
            simp [decode_with_config, he, hst]]
          rw [ih]
          rw [show decode_with_config (27 :: b :: t) cfg =
              (decode_with_config t cfg).map
                (cfg.replacement_char :: ·) from by
            simp [decode_with_config, he, hst]]
          cases hdt : decode_with_config t cfg with
          | ok s => simp [hst]
          | error e => simp
    · have hnd2 : trailingEsc (b :: t) = false := by
        simpa [trailingEsc, ha] using hnd
      have ih := ihbt hnd2
      have hL : ((a :: b :: t) ++ [27] : List Nat) = a :: ((b :: t) ++ [27]) :=
        rfl
      rw [hL, decode_cons_low ((b :: t) ++ [27]) cfg ha,
        decode_cons_low (b :: t) cfg ha]
      by_cases hlt : a < 128
      · rw [if_pos hlt, if_pos hlt]
        cases harr : gsmArray a with
        | some ch =>
          simp only [harr]
          rw [ih]
          cases hdt : decode_with_config (b :: t) cfg with
          | ok s => cases hst : cfg.strict <;> simp [hst]
          | error e => simp
        | none =>
          simp only [harr]
          cases hst : cfg.strict with
          | true => simp [hst]
          | false =>
            simp only [hst, Bool.false_eq_true, if_false]
            rw [ih]
            cases hdt : decode_with_config (b :: t) cfg with
            | ok s => simp [hst]
            | error e => simp
      · rw [if_neg hlt, if_neg hlt]
        rw [ih]
        cases hdt : decode_with_config (b :: t) cfg with
        | ok s => cases hst : cfg.strict <;> simp [hst]
        | error e => simp

/-- Witness for C6 at the clean prefix `[0x48]` in strict mode. -/
theorem claim6_escape_at_end_witness :
    decode_with_config ([0x48] ++ [27]) Gsm7Config.strictCfg =
      match decode_with_config [0x48] Gsm7Config.strictCfg with
      | .ok s =>
        if Gsm7Config.strictCfg.strict then .error (.malformedData escEndMsg)
        else .ok (s ++ [Gsm7Config.strictCfg.replacement_char])
      | .error e => .error e :=
  claim6_escape_at_end [0x48] Gsm7Config.strictCfg (by decide) (by decide)

/-- C5: for a string of mappable characters, `encoded_len` succeeds and
equals the byte length of `encode`; on a string with an unmapped character
it fails with `UnsupportedCharacter` for the first such character (always
strict semantics, there is no configuration parameter); and
`is_gsm7_compatible` is true exactly when `encoded_len` succeeds. -/
theorem claim5_encoded_len_consistent :
    (∀ s, (∀ c ∈ s, (charToGsm c).isSome) →
      ∃ bs, encode s = .ok bs ∧ encoded_len s = .ok bs.length) ∧
    (∀ pre c post, (∀ x ∈ pre, (charToGsm x).isSome) → charToGsm c = none →
      encoded_len (pre ++ c :: post) =
        .error (.unsupportedCharacter c c.toNat)) ∧
    (∀ s, is_gsm7_compatible s = (encoded_len s).isOk) := by
  refine ⟨?_, ?_, fun s => rfl⟩
  · intro s hall
    induction s with
    | nil => exact ⟨[], rfl, rfl⟩
    | cons c rest ih =>
      have hc : (charToGsm c).isSome := hall c (List.mem_cons_self c rest)
      obtain ⟨bs, hbs, hlen⟩ :=
        ih (fun x hx => hall x (List.mem_cons_of_mem c hx))
      obtain ⟨code, hcode⟩ := Option.isSome_iff_exists.mp hc
      have hbs2 : encode_with_config rest Gsm7Config.default = .ok bs := hbs
      cases code with
      | single b =>
        refine ⟨b :: bs, ?_, ?_⟩
        · show encode_with_config (c :: rest) Gsm7Config.default = _
          simp [encode_with_config, hcode, hbs2]
        · simp [encoded_len, hcode, hlen]
      | escape e =>
        refine ⟨27 :: e :: bs, ?_, ?_⟩
        · show encode_with_config (c :: rest) Gsm7Config.default = _
          simp [encode_with_config, hcode, hbs2]
        · simp [encoded_len, hcode, hlen]
  · intro pre c post hall hc
    induction pre with
    | nil => simp [encoded_len, hc]
    | cons p pre ih =>
      have hp : (charToGsm p).isSome := hall p (List.mem_cons_self p pre)
      obtain ⟨code, hcode⟩ := Option.isSome_iff_exists.mp hp
      have ih2 := ih (fun x hx => hall x (List.mem_cons_of_mem p hx))
      cases code with
      | single b => simp [encoded_len, hcode, ih2]
      | escape e => simp [encoded_len, hcode, ih2]

/-- Witness for C5 on the mappable string `A€` and the unmapped crab. -/
theorem claim5_encoded_len_consistent_witness :
    (∃ bs, encode [Char.ofNat 0x41, Char.ofNat 0x20AC] = .ok bs ∧
      encoded_len [Char.ofNat 0x41, Char.ofNat 0x20AC] = .ok bs.length) ∧
    encoded_len [Char.ofNat 0x1F980] =
      .error (.unsupportedCharacter (Char.ofNat 0x1F980)
        (Char.ofNat 0x1F980).toNat) ∧
    is_gsm7_compatible [Char.ofNat 0x1F980] =
      (encoded_len [Char.ofNat 0x1F980]).isOk :=
  ⟨claim5_encoded_len_consistent.1 _ (by decide),
   claim5_encoded_len_consistent.2.1 [] (Char.ofNat 0x1F980) [] (by decide)
     (by decide),
   claim5_encoded_len_consistent.2.2 _⟩

/-- C9: every successful encode output parses as a sequence of wire units
(single base-table bytes below 128, never a lone 0x1B, or pairs of 0x1B and
an extension-table key), and in particular every output byte is below 128. -/
theorem claim9_wire_contract (s : List Char) (cfg : Gsm7Config)
    (bytes : List Nat) (h : encode_with_config s cfg = .ok bytes) :
    wireOk bytes = true ∧ ∀ x ∈ bytes, x < 128 := by
  induction s generalizing bytes with
  | nil =>
    have hb : bytes = [] := by
      simpa [encode_with_config] using h.symm
    subst hb
    exact ⟨rfl, by simp⟩
  | cons c rest ih =>
    cases hc : charToGsm c with
    | some code =>
      cases code with
      | single b =>
        rw [show encode_with_config (c :: rest) cfg =
            (encode_with_config rest cfg).map (b :: ·) from by
          simp [encode_with_config, hc]] at h
        cases henc : encode_with_config rest cfg with
        | error e => rw [henc] at h; simp at h
        | ok bs =>
          rw [henc] at h
          simp only [except_map_ok, Except.ok.injEq] at h
          subst h
          obtain ⟨harr, hlt, hne⟩ := base_mem_facts (charToGsm_single_mem hc)
          obtain ⟨hw, hall⟩ := ih bs henc
          refine ⟨?_, ?_⟩
          · rw [wireOk_cons_low bs hne]
            simp [hlt, harr, hw]
          · intro x hx
            rcases List.mem_cons.mp hx with hx | hx
            · subst hx; exact hlt
            · exact hall x hx
      | escape e =>
        rw [show encode_with_config (c :: rest) cfg =
            (encode_with_config rest cfg).map (fun t => 27 :: e :: t) from by
          simp [encode_with_config, hc]] at h
        cases henc : encode_with_config rest cfg with
        | error err => rw [henc] at h; simp at h
        | ok bs =>
          rw [henc] at h
          simp only [except_map_ok, Except.ok.injEq] at h
          subst h
          obtain ⟨hext, hlt⟩ := ext_mem_facts (charToGsm_escape_mem hc)
          obtain ⟨hw, hall⟩ := ih bs henc
          refine ⟨?_, ?_⟩
          · simp [wireOk, hext, hw]
          · intro x hx
            rcases List.mem_cons.mp hx with hx | hx
            · subst hx; omega
            rcases List.mem_cons.mp hx with hx | hx
            · subst hx; exact hlt
            · exact hall x hx
    | none =>
      cases hst : cfg.strict with
      | true =>
        rw [show encode_with_config (c :: rest) cfg =
            .error (.unsupportedCharacter c c.toNat) from by
          simp [encode_with_config, hc, hst]] at h
        simp at h
      | false =>
        cases hr : charToGsm cfg.replacement_char with
        | some code =>
          cases code with
          | single b =>
            rw [show encode_with_config (c :: rest) cfg =
                (encode_with_config rest cfg).map (b :: ·) from by
              simp [encode_with_config, hc, hst, hr]] at h
            cases henc : encode_with_config rest cfg with
            | error e => rw [henc] at h; simp at h
            | ok bs =>
              rw [henc] at h
              simp only [except_map_ok, Except.ok.injEq] at h
              subst h
              obtain ⟨harr, hlt, hne⟩ :=
                base_mem_facts (charToGsm_single_mem hr)
              obtain ⟨hw, hall⟩ := ih bs henc
              refine ⟨?_, ?_⟩
              · rw [wireOk_cons_low bs hne]
                simp [hlt, harr, hw]
              · intro x hx
                rcases List.mem_cons.mp hx with hx | hx
                · subst hx; exact hlt
                · exact hall x hx
          | escape e =>
            rw [show encode_with_config (c :: rest) cfg =
                (encode_with_config rest cfg).map (32 :: ·) from by
              simp [encode_with_config, hc, hst, hr]] at h
            cases henc : encode_with_config rest cfg with
            | error err => rw [henc] at h; simp at h
            | ok bs =>
              rw [henc] at h
              simp only [except_map_ok, Except.ok.injEq] at h
              subst h
              obtain ⟨hw, hall⟩ := ih bs henc
              refine ⟨?_, ?_⟩
              · rw [wireOk_cons_low bs (by decide)]
                simp [gsmArray_space, hw]
              · intro x hx
                rcases List.mem_cons.mp hx with hx | hx
                · subst hx; omega
                · exact hall x hx
        | none =>
          rw [show encode_with_config (c :: rest) cfg =
              (encode_with_config rest cfg).map (32 :: ·) from by
            simp [encode_with_config, hc, hst, hr]] at h
          cases henc : encode_with_config rest cfg with
          | error err => rw [henc] at h; simp at h
          | ok bs =>
            rw [henc] at h
            simp only [except_map_ok, Except.ok.injEq] at h
            subst h
            obtain ⟨hw, hall⟩ := ih bs henc
            refine ⟨?_, ?_⟩
            · rw [wireOk_cons_low bs (by decide)]
              simp [gsmArray_space, hw]
            · intro x hx
              rcases List.mem_cons.mp hx with hx | hx
              · subst hx; omega
              · exact hall x hx

/-- Witness for C9 on the encoding of `A{`. -/
theorem claim9_wire_contract_witness :
    wireOk [0x41, 27, 0x28] = true ∧ ∀ x ∈ [0x41, 27, 0x28], x < 128 :=
  claim9_wire_contract [Char.ofNat 0x41, Char.ofNat 0x7B]
    Gsm7Config.default [0x41, 27, 0x28] (by decide)

/-- C3 counterexample: in the minimal variant, with the euro sign (an
extension character, so `charToGsm` yields its escape code) configured as
the replacement, an unmapped character is encoded as the single byte 0x20
instead of the two-byte escape form `[0x1B, 0x65]` the claim requires. -/
theorem claim3_counterexample :
    encode_with_config [Char.ofNat 0x1F980]
      { strict := false, replacement_char := Char.ofNat 0x20AC } =
      .ok [32] ∧
    charToGsm (Char.ofNat 0x20AC) = some (.escape 0x65) ∧
    ([32] : List Nat) ≠ [27, 0x65] :=
  ⟨by decide, by decide, by decide⟩

/-- C3 (amended): in the packaged variant, a non-strict encode substitutes
an unmapped character by re-running the lookup on the replacement
character, emitting its single-byte or two-byte escape form and falling
back to 0x20 when the replacement is unmapped; in the minimal variant only
a single-byte replacement code is used, and any other outcome of the
lookup (escape-coded or unmapped replacement) appends the byte 0x20.  In
both variants a non-strict encode never fails (for the packaged variant,
absent a length-limit violation). -/
theorem claim3_replacement_substitution :
    (∀ (cfg : Gsm7Config) c, cfg.strict = false → charToGsm c = none →
      encode_with_config [c] cfg = .ok
        (match charToGsm cfg.replacement_char with
         | some (.single b) => [b]
         | _ => [32])) ∧
    (∀ (cfg : Pkg.Config) c, cfg.strict = false → Pkg.getCode c = none →
      Pkg.encodeLoop [c] cfg = .ok
        (match Pkg.getCode cfg.replacement_char with
         | some (.single b) => [b]
         | some (.escape b) => [27, b]
         | none => [32])) ∧
    (∀ (cfg : Gsm7Config) s, cfg.strict = false →
      ∃ bs, encode_with_config s cfg = .ok bs) ∧
    (∀ (cfg : Pkg.Config) s, cfg.strict = false →
      (cfg.max_input_length = 0 ∨ Pkg.utf8Len s ≤ cfg.max_input_length) →
      ∃ bs, Pkg.encode_with_config s cfg = .ok bs) := by
  refine ⟨?_, ?_, fun cfg s h => encode_total s cfg h, ?_⟩
  · intro cfg c h hc
    cases hr : charToGsm cfg.replacement_char with
    | some code =>
      cases code with
      | single b => simp [encode_with_config, hc, h, hr]
      | escape e => simp [encode_with_config, hc, h, hr]
    | none => simp [encode_with_config, hc, h, hr]
  · intro cfg c h hc
    cases hr : Pkg.getCode cfg.replacement_char with
    | some code =>
      cases code with
      | single b => simp [Pkg.encodeLoop, hc, h, hr]
      | escape e => simp [Pkg.encodeLoop, hc, h, hr]
    | none => simp [Pkg.encodeLoop, hc, h, hr]
  · intro cfg s h hlen
    by_cases hs : s = []
    · subst hs
      exact ⟨[], rfl⟩
    · obtain ⟨bs, hbs⟩ := encodeLoop_total s cfg h
      refine ⟨bs, ?_⟩
      have hnotlong : ¬(0 < cfg.max_input_length ∧
          cfg.max_input_length < Pkg.utf8Len s) := by
        rintro ⟨hpos, hlt⟩
        rcases hlen with h0 | hle
        · omega
        · omega
      unfold Pkg.encode_with_config
      rw [if_neg hs, if_neg hnotlong]
      exact hbs

/-- Witness for C3: the crab substituted through the replacement `?` in the
minimal variant and through the euro sign in the packaged loop. -/
theorem claim3_replacement_substitution_witness :
    encode_with_config [Char.ofNat 0x1F980]
      { strict := false, replacement_char := Char.ofNat 0x3F } = .ok
        (match charToGsm (Gsm7Config.mk false (Char.ofNat 0x3F)).replacement_char with
         | some (.single b) => [b]
         | _ => [32]) ∧
    Pkg.encodeLoop [Char.ofNat 0x1F980]
      { strict := false, replacement_char := Char.ofNat 0x20AC,
        max_input_length := 0, validate_input := false } = .ok
        (match Pkg.getCode (Pkg.Config.mk false (Char.ofNat 0x20AC) 0
            false).replacement_char with
         | some (.single b) => [b]
         | some (.escape b) => [27, b]
         | none => [32]) :=
  ⟨claim3_replacement_substitution.1 _ (Char.ofNat 0x1F980) rfl (by decide),
   claim3_replacement_substitution.2.1 _ (Char.ofNat 0x1F980) rfl (by decide)⟩

/-- The UTF-8 width of a character is at least one byte. -/
theorem one_le_utf8CharLen (c : Char) : 1 ≤ Pkg.utf8CharLen c := by
  unfold Pkg.utf8CharLen
  repeat' split
  all_goals omega

/-- A string's character count never exceeds its UTF-8 byte length. -/
theorem length_le_utf8Len (s : List Char) : s.length ≤ Pkg.utf8Len s := by
  induction s with
  | nil => simp [Pkg.utf8Len]
  | cons c rest ih =>
    have := one_le_utf8CharLen c
    simp only [Pkg.utf8Len, List.map_cons, List.sum_cons, List.length_cons]
    simp only [Pkg.utf8Len] at ih
    omega

/-- C7: with a positive `max_input_length`, the packaged encode fails with
the length-exceeded `MalformedData` error, before producing any output,
whenever the character count of the input exceeds the limit (the check
itself compares the UTF-8 byte length, which is at least the character
count); the packaged decode fails the same way whenever the byte count of
the input exceeds the limit. -/
theorem claim7_length_limit :
    (∀ (s : List Char) (cfg : Pkg.Config), 0 < cfg.max_input_length →
      cfg.max_input_length < s.length →
      Pkg.encode_with_config s cfg =
        .error (.malformedData
          (Pkg.lenMsg (Pkg.utf8Len s) cfg.max_input_length))) ∧
    (∀ (data : List Nat) (cfg : Pkg.Config), 0 < cfg.max_input_length →
      cfg.max_input_length < data.length →
      Pkg.decode_with_config data cfg =
        .error (.malformedData
          (Pkg.lenMsg data.length cfg.max_input_length))) := by
  constructor
  · intro s cfg hpos hlen
    have hs : s ≠ [] := by
      intro hs
      subst hs
      simp at hlen
    have hbytes : cfg.max_input_length < Pkg.utf8Len s :=
      lt_of_lt_of_le hlen (length_le_utf8Len s)
    unfold Pkg.encode_with_config
    rw [if_neg hs, if_pos ⟨hpos, hbytes⟩]
  · intro data cfg hpos hlen
    have hd : data ≠ [] := by
      intro hd
      subst hd
      simp at hlen
    unfold Pkg.decode_with_config
    rw [if_neg hd, if_pos ⟨hpos, hlen⟩]

/-- Witness for C7: an 11-character ASCII string and an 11-byte buffer
against the limit 5. -/
theorem claim7_length_limit_witness :
    Pkg.encode_with_config
      [Char.ofNat 0x48, Char.ofNat 0x65, Char.ofNat 0x6C, Char.ofNat 0x6C,
       Char.ofNat 0x6F, Char.ofNat 0x20, Char.ofNat 0x57, Char.ofNat 0x6F,
       Char.ofNat 0x72, Char.ofNat 0x6C, Char.ofNat 0x64]
      { strict := false, replacement_char := Char.ofNat 0xFFFD,
        max_input_length := 5, validate_input := false } =
      .error (.malformedData (Pkg.lenMsg (Pkg.utf8Len
        [Char.ofNat 0x48, Char.ofNat 0x65, Char.ofNat 0x6C, Char.ofNat 0x6C,
         Char.ofNat 0x6F, Char.ofNat 0x20, Char.ofNat 0x57, Char.ofNat 0x6F,
         Char.ofNat 0x72, Char.ofNat 0x6C, Char.ofNat 0x64]) 5)) ∧
    Pkg.decode_with_config [1, 2, 3, 4, 5, 6, 7, 8, 9, 10, 11]
      { strict := false, replacement_char := Char.ofNat 0xFFFD,
        max_input_length := 5, validate_input := false } =
      .error (.malformedData (Pkg.lenMsg 11 5)) :=
  ⟨claim7_length_limit.1 _ _ (by decide) (by decide),
   claim7_length_limit.2 _ _ (by decide) (by decide)⟩

/-- C2: the packaged pre-pass validator run with `strict = true` classifies
every byte sequence exactly as the packaged main decode loop does in strict
mode: it returns the very same verdict (same success, same error), so in
particular it succeeds exactly when the strict main loop succeeds, and it
treats bytes of 128 or more and escape-related bytes identically. -/
theorem claim2_validator_matches_strict_loop (data : List Nat)
    (cfg : Pkg.Config) (_hbytes : ∀ x ∈ data, x < 256)
    (hst : cfg.strict = true) :
    Pkg.validate_encoded_data data true =
      (Pkg.decodeLoop data cfg).map (fun _ => ()) := by
  clear _hbytes
  induction data using twoStepInduction with
  | nil => rfl
  | one b =>
    by_cases hb : b = 27
    · subst hb
      simp [Pkg.validate_encoded_data, Pkg.decodeLoop, hst]
    · by_cases h128 : 128 ≤ b
      · have hchar : Pkg.getChar b = none := by
          unfold Pkg.getChar
          rw [if_neg (by omega)]
        simp [Pkg.validate_encoded_data, Pkg.decodeLoop, hb, h128, hst, hchar]
      · cases ha : Pkg.getChar b with
        | some ch =>
          simp [Pkg.validate_encoded_data, Pkg.decodeLoop, hb, h128, hst, ha]
        | none =>
          simp [Pkg.validate_encoded_data, Pkg.decodeLoop, hb, h128, hst, ha]
  | more a b t iht ihbt =>
    by_cases ha : a = 27
    · subst ha
      cases he : Pkg.getExtChar b with
      | some ch =>
        rw [show Pkg.validate_encoded_data (27 :: b :: t) true =
            Pkg.validate_encoded_data t true from by
          simp [Pkg.validate_encoded_data, he]]
        rw [show Pkg.decodeLoop (27 :: b :: t) cfg =
            (Pkg.decodeLoop t cfg).map (ch :: ·) from by
          simp [Pkg.decodeLoop, he]]
        rw [iht]
        cases hdt : Pkg.decodeLoop t cfg <;> simp
      | none =>
        simp [Pkg.validate_encoded_data, Pkg.decodeLoop, he, hst]
    · by_cases h128 : 128 ≤ a
      · have hchar : Pkg.getChar a = none := by
          unfold Pkg.getChar
          rw [if_neg (by omega)]
        simp [Pkg.validate_encoded_data, Pkg.decodeLoop, ha, h128, hst, hchar]
      · cases harr : Pkg.getChar a with
        | some ch =>
          rw [show Pkg.validate_encoded_data (a :: b :: t) true =
              Pkg.validate_encoded_data (b :: t) true from by
            simp [Pkg.validate_encoded_data, ha, h128, harr]]
          rw [show Pkg.decodeLoop (a :: b :: t) cfg =
              (Pkg.decodeLoop (b :: t) cfg).map (ch :: ·) from by
            simp [Pkg.decodeLoop, ha, harr]]
          rw [ihbt]
          cases hdbt : Pkg.decodeLoop (b :: t) cfg <;> simp
        | none =>
          simp [Pkg.validate_encoded_data, Pkg.decodeLoop, ha, h128, hst,
            harr]

/-- Witness for C2 at the lone escape byte in a strict configuration. -/
theorem claim2_validator_matches_strict_loop_witness :
    Pkg.validate_encoded_data [27] true =
      (Pkg.decodeLoop [27]
        { strict := true, replacement_char := Char.ofNat 0xFFFD,
          max_input_length := 0, validate_input := false }).map
        (fun _ => ()) :=
  claim2_validator_matches_strict_loop [27]
    { strict := true, replacement_char := Char.ofNat 0xFFFD,
      max_input_length := 0, validate_input := false } (by decide) rfl

end Gsm7
